import Mathlib

/-!
# Verification of the lsmdb in-memory memtable core (src/lib.rs)

Shallow embedding of the repository's single source file: an active memtable
(ordered map from key to entry), an optional frozen memtable, a running size
counter with a 1 MiB freeze threshold, point lookup with active-over-frozen
precedence, and a two-cursor merge iterator for prefix scans.

Modelling conventions:
- Rust `String` keys and `Vec<u8>` values are modelled as `List Nat` (byte
  sequences); Rust's `Ord` on `String` is byte-wise lexicographic, matched
  here by `keyCmp`, and `str::starts_with` is byte-sequence prefix, matched
  by `List.isPrefixOf`.
- `BTreeMap<Key, Entry>` is modelled as an association list kept in strictly
  ascending key order (`MtSorted`); `mtGet`, `mtInsert` and `rangeFrom` model
  `BTreeMap::get`, `BTreeMap::insert` (returning the previous value) and
  `BTreeMap::range((Included lo, Unbounded))`.
- `usize` is `Nat`; the one subtraction in `_put_entry` is shown never to
  truncate on coherent states.
- A Rust panic (the `assert!` in `_swap_and_compact`) is modelled as `none`;
  `Result<T, DBError>` is `Except DBError T`.
- The lazy `DBIterator` is modelled by the full list of items its repeated
  `next()` calls produce (`iterRun`), with `peek` = `List.head?`.
-/

abbrev Key : Type := List Nat
abbrev Value : Type := List Nat

/-- `DBError`: the (unit) error type of the Rust code; never produced. -/
structure DBError : Type where
deriving DecidableEq, Repr

/-- `Entry`: a live payload or a deletion tombstone. -/
inductive Entry : Type where
  | Present (value : Value)
  | Deleted
deriving DecidableEq, Repr

/-- `Entry::len`: the entry's size on disk (payload length, or 1 for a tombstone). -/
def Entry.len : Entry → Nat
  | Entry.Present value => value.length
  | Entry.Deleted => 1

/-- 1 MB size threshold (`MEMTABLE_MAX_SIZE_BYTES`). -/
def MEMTABLE_MAX_SIZE_BYTES : Nat := 1024 * 1024 * 1

/-- Byte-wise lexicographic comparison of keys: Rust's `Ord::cmp` on `String`. -/
def keyCmp : Key → Key → Ordering
  | [], [] => Ordering.eq
  | [], _ :: _ => Ordering.lt
  | _ :: _, [] => Ordering.gt
  | a :: as, b :: bs =>
    if a < b then Ordering.lt
    else if b < a then Ordering.gt
    else keyCmp as bs

/-- Strict key order `a < b`. -/
def keyLt (a b : Key) : Prop := keyCmp a b = Ordering.lt

instance (a b : Key) : Decidable (keyLt a b) := by
  unfold keyLt; infer_instance

/-- The association-list model of `BTreeMap<Key, Entry>`. -/
abbrev Memtable : Type := List (Key × Entry)

/-- The `BTreeMap` representation invariant: strictly ascending key order. -/
def MtSorted (m : Memtable) : Prop :=
  List.Pairwise (fun a b : Key × Entry => keyLt a.1 b.1) m

instance (m : Memtable) : Decidable (MtSorted m) := by
  unfold MtSorted; infer_instance

/-- `BTreeMap::get`. -/
def mtGet (k : Key) : Memtable → Option Entry
  | [] => none
  | (k2, e) :: rest => if keyCmp k k2 = Ordering.eq then some e else mtGet k rest

/-- `BTreeMap::insert`: returns the updated map and the previous entry for the
key, if any (Rust's return value of `insert`). -/
def mtInsert (k : Key) (e : Entry) : Memtable → Memtable × Option Entry
  | [] => ([(k, e)], none)
  | (k2, e2) :: rest =>
    match keyCmp k k2 with
    | Ordering.lt => ((k, e) :: (k2, e2) :: rest, none)
    | Ordering.eq => ((k, e) :: rest, some e2)
    | Ordering.gt =>
      let r := mtInsert k e rest
      ((k2, e2) :: r.1, r.2)

/-- `BTreeMap::range((Bound::Included lo, Bound::Unbounded))`: the
associations whose key is ≥ `lo`, in map order. -/
def rangeFrom (lo : Key) : Memtable → Memtable
  | [] => []
  | (k, e) :: rest =>
    match keyCmp k lo with
    | Ordering.lt => rangeFrom lo rest
    | _ => (k, e) :: rangeFrom lo rest

/-- Sum of (key length + entry length) over a memtable's associations. -/
def mtSize : Memtable → Nat
  | [] => 0
  | (k, e) :: rest => k.length + e.len + mtSize rest

/-- The list of keys of a memtable. -/
def mtKeys (m : Memtable) : List Key := m.map Prod.fst

/-- The `DB` struct. `root_path` models the opaque `PathBuf` location handle,
which the core stores but never reads or writes. -/
structure DB : Type where
  root_path : List Nat
  memtable : Memtable
  memtable_frozen : Option Memtable
  memtable_size : Nat
deriving DecidableEq, Repr

/-- The frozen memtable, defaulting to empty when absent (lookups against a
missing frozen table see no entries). -/
def frozenD (db : DB) : Memtable := db.memtable_frozen.getD []

/-- `DB::open` (the name `open` is a Lean keyword): always succeeds, storing
the location handle and starting with an empty active memtable. -/
def DB.openDB (path : List Nat) : Except DBError DB :=
  Except.ok
    { root_path := path
      memtable := []
      memtable_frozen := none
      memtable_size := 0 }

/-- The store state `DB::open` returns. -/
def dbInit (path : List Nat) : DB :=
  { root_path := path
    memtable := []
    memtable_frozen := none
    memtable_size := 0 }

/-- `DB::_get_from_memtable`. -/
def DB._get_from_memtable (k : Key) (m : Memtable) : Except DBError (Option Entry) :=
  Except.ok (mtGet k m)

/-- `DB::get`: consult the active memtable, then the frozen one; a Present
entry yields its payload, a tombstone or a miss yields `none`. Each `match`
on an `Except` is the desugaring of one Rust `?` operator. -/
def DB.get (db : DB) (key : Key) : Except DBError (Option Value) :=
  match DB._get_from_memtable key db.memtable with
  | Except.error err => Except.error err
  | Except.ok r0 =>
    match (match r0 with
           | some e => Except.ok (some e)
           | none =>
             match db.memtable_frozen with
             | some snapshot => DB._get_from_memtable key snapshot
             | none => Except.ok none) with
    | Except.error err => Except.error err
    | Except.ok result =>
      Except.ok
        (match result with
         | some (Entry.Present data) => some data
         | some Entry.Deleted => none
         | none => none)

/-- `DB::_swap_and_compact`: `assert!(memtable_frozen.is_none())` — a panic,
modelled as `none` — then move the active memtable into the frozen slot,
leaving a fresh empty active memtable. The size counter is untouched. -/
def DB._swap_and_compact (db : DB) : Option DB :=
  match db.memtable_frozen with
  | some _ => none
  | none =>
    some { db with memtable := [], memtable_frozen := some db.memtable }

/-- `DB::_put_entry`: add `entry.len()` to the counter, insert, then subtract
the old entry's length (overwrite) or add the key length (fresh key); freeze
when the counter reaches `MEMTABLE_MAX_SIZE_BYTES`. `none` models the panic
propagated out of `_swap_and_compact`. -/
def DB._put_entry (db : DB) (key : Key) (entry : Entry) : Option (Except DBError DB) :=
  let key_len := key.length
  let value_len := entry.len
  let inserted := mtInsert key entry db.memtable
  let size2 : Nat :=
    match inserted.2 with
    | some old_value => db.memtable_size + value_len - old_value.len
    | none => db.memtable_size + value_len + key_len
  let db2 : DB := { db with memtable := inserted.1, memtable_size := size2 }
  if MEMTABLE_MAX_SIZE_BYTES ≤ size2 then
    match DB._swap_and_compact db2 with
    | some db3 => some (Except.ok db3)
    | none => none
  else
    some (Except.ok db2)

/-- `DB::put`. -/
def DB.put (db : DB) (key : Key) (value : Value) : Option (Except DBError DB) :=
  DB._put_entry db key (Entry.Present value)

/-- `DB::delete`: writes a tombstone, never physically removes. -/
def DB.delete (db : DB) (key : Key) : Option (Except DBError DB) :=
  DB._put_entry db key Entry.Deleted

/-- One run of `DBIterator::next` calls until exhaustion. The two cursor
states are the unconsumed tails of the two ranges (`peek` = `head?`); a
missing frozen iterator behaves as the empty tail. Each loop iteration picks
the winning cursor (active wins ties, silently discarding the frozen
duplicate), stops at the first key that no longer starts with the sought
byte sequence `p`, and skips tombstones. -/
def iterRun : Memtable → Memtable → Key → List (Key × Value)
  | [], [], _ => []
  | (km, em) :: mr, [], p =>
    if p.isPrefixOf km then
      match em with
      | Entry.Present d => (km, d) :: iterRun mr [] p
      | Entry.Deleted => iterRun mr [] p
    else []
  | [], (ki, ei) :: ir, p =>
    if p.isPrefixOf ki then
      match ei with
      | Entry.Present d => (ki, d) :: iterRun [] ir p
      | Entry.Deleted => iterRun [] ir p
    else []
  | (km, em) :: mr, (ki, ei) :: ir, p =>
    match keyCmp km ki with
    | Ordering.eq =>
      if p.isPrefixOf km then
        match em with
        | Entry.Present d => (km, d) :: iterRun mr ir p
        | Entry.Deleted => iterRun mr ir p
      else []
    | Ordering.lt =>
      if p.isPrefixOf km then
        match em with
        | Entry.Present d => (km, d) :: iterRun mr ((ki, ei) :: ir) p
        | Entry.Deleted => iterRun mr ((ki, ei) :: ir) p
      else []
    | Ordering.gt =>
      if p.isPrefixOf ki then
        match ei with
        | Entry.Present d => (ki, d) :: iterRun ((km, em) :: mr) ir p
        | Entry.Deleted => iterRun ((km, em) :: mr) ir p
      else []
termination_by m i _ => m.length + i.length

/-- The full sequence of items produced by the iterator `DB::seek` returns:
both cursors range from the first key ≥ `p` to the end of their memtable. -/
def DB.seekList (db : DB) (p : Key) : List (Key × Value) :=
  iterRun (rangeFrom p db.memtable) (rangeFrom p (frozenD db)) p

/-- `DB::seek`: always `Ok`, returning the iterator (modelled by its full
output sequence). -/
def DB.seek (db : DB) (p : Key) : Except DBError (List (Key × Value)) :=
  Except.ok (DB.seekList db p)

/-- The operations an external caller can drive the store with. -/
inductive Op : Type where
  | put (k : Key) (v : Value)
  | del (k : Key)
deriving DecidableEq, Repr

/-- Apply one operation; `none` when the call panics (the `Except.error`
branch is unreachable, `put`/`delete` never return `Err`). -/
def applyOp (db : DB) : Op → Option DB
  | Op.put k v =>
    match DB.put db k v with
    | some (Except.ok db2) => some db2
    | _ => none
  | Op.del k =>
    match DB.delete db k with
    | some (Except.ok db2) => some db2
    | _ => none

/-- Apply a sequence of operations left to right. -/
def applyOps (db : DB) : List Op → Option DB
  | [] => some db
  | op :: rest =>
    match applyOp db op with
    | some db2 => applyOps db2 rest
    | none => none

/-- The payload the last effective write to `k` in `ops` leaves behind:
`some v` for a final put, `none` for a final delete or no write at all. -/
def lastWrite (ops : List Op) (k : Key) : Option Value :=
  ops.foldl
    (fun acc op =>
      match op with
      | Op.put k2 v => if k2 = k then some v else acc
      | Op.del k2 => if k2 = k then none else acc)
    none

/-- The store states reachable through the public lifecycle: `open`, then
any interleaving of non-panicking `put`, `delete` and freeze steps. -/
inductive Reachable : DB → Prop where
  | init (path : List Nat) : Reachable (dbInit path)
  | putStep {db db2 : DB} (k : Key) (v : Value) :
      Reachable db → DB.put db k v = some (Except.ok db2) → Reachable db2
  | delStep {db db2 : DB} (k : Key) :
      Reachable db → DB.delete db k = some (Except.ok db2) → Reachable db2
  | freezeStep {db db2 : DB} :
      Reachable db → DB._swap_and_compact db = some db2 → Reachable db2

/-- The order-merge of the two cursors' remaining contents with active (left)
precedence on equal keys: the sequence of (key, entry) winners the iterator
loop would examine, before prefix cut-off and tombstone filtering. -/
def mergeKV : Memtable → Memtable → Memtable
  | [], ys => ys
  | x :: xs, [] => x :: xs
  | (kx, ex) :: xs, (ky, ey) :: ys =>
    match keyCmp kx ky with
    | Ordering.eq => (kx, ex) :: mergeKV xs ys
    | Ordering.lt => (kx, ex) :: mergeKV xs ((ky, ey) :: ys)
    | Ordering.gt => (ky, ey) :: mergeKV ((kx, ex) :: xs) ys
termination_by xs ys => xs.length + ys.length

/-- The iterator loop over a single already-merged winner sequence: stop at
the first key that no longer starts with `p`, skip tombstones. -/
def iterAll : Memtable → Key → List (Key × Value)
  | [], _ => []
  | (k, e) :: rest, p =>
    if p.isPrefixOf k then
      match e with
      | Entry.Present d => (k, d) :: iterAll rest p
      | Entry.Deleted => iterAll rest p
    else []

/-- The `BTreeMap` representation invariant for a whole store. -/
def DBWF (db : DB) : Prop := MtSorted db.memtable ∧ MtSorted (frozenD db)

instance (db : DB) : Decidable (DBWF db) := by
  unfold DBWF; infer_instance

/-- What a lookup reports for a found entry: the payload of a Present entry,
absent for a tombstone (the final `match` of `DB::get`). -/
def entryToLookup : Entry → Option Value
  | Entry.Present v => some v
  | Entry.Deleted => none

/-! ### Concrete sample stores used to instantiate the theorems -/

/-- A well-formed store where key `[1]` is in both memtables with different
payloads, `[2]` is an active tombstone, and `[3]` lives only frozen. -/
def dbWit : DB :=
  { root_path := []
    memtable := [([1], Entry.Present [10]), ([2], Entry.Deleted)]
    memtable_frozen := some [([1], Entry.Present [99]), ([3], Entry.Present [30])]
    memtable_size := 5 }

/-- The store `open` then `put [0] [1,2]` produces. -/
def dbA : DB :=
  { root_path := [], memtable := [([0], Entry.Present [1, 2])]
    memtable_frozen := none, memtable_size := 3 }

/-- `dbA` after a (manual) freeze: the counter keeps its value 3. -/
def dbAF : DB :=
  { root_path := [], memtable := []
    memtable_frozen := some [([0], Entry.Present [1, 2])], memtable_size := 3 }

/-- `dbA` after overwriting `[0]` with the payload `[7]`. -/
def dbAOver : DB :=
  { root_path := [], memtable := [([0], Entry.Present [7])]
    memtable_frozen := none, memtable_size := 2 }

/-- `dbA` after `delete [5]` (a fresh tombstone, below the threshold). -/
def dbADel : DB :=
  { root_path := [], memtable := [([0], Entry.Present [1, 2]), ([5], Entry.Deleted)]
    memtable_frozen := none, memtable_size := 5 }

/-- A 1048574-byte payload: with its one-byte key it brings a fresh store to
one byte below the freeze threshold. -/
def bigVal1 : Value := List.replicate 1048574 7

/-- A 1048575-byte payload: overwriting `bigVal1` with it crosses the
threshold. -/
def bigVal2 : Value := List.replicate 1048575 7

/-- The store reached from `open` by `put [0] bigVal1`: counter 1048575, one
byte below the threshold, nothing frozen. -/
def dbBig : DB :=
  { root_path := [], memtable := [([0], Entry.Present bigVal1)]
    memtable_frozen := none, memtable_size := 1048575 }

/-- The store `put dbBig [0] bigVal2` produces: the overwrite crossed the
threshold, so the updated memtable was swapped into the frozen slot. -/
def dbBig2 : DB :=
  { root_path := [], memtable := []
    memtable_frozen := some [([0], Entry.Present bigVal2)], memtable_size := 1048576 }

/-- The store `delete dbBig [2]` produces: the fresh tombstone crossed the
threshold, so the updated memtable was swapped into the frozen slot. -/
def dbBigDel : DB :=
  { root_path := [], memtable := []
    memtable_frozen := some [([0], Entry.Present bigVal1), ([2], Entry.Deleted)]
    memtable_size := 1048577 }

/-- The sequence `put [1] [5]; put [2] [6]; delete [1]`. -/
def opsWit : List Op := [Op.put [1] [5], Op.put [2] [6], Op.del [1]]

/-- The store `opsWit` produces from a fresh store. -/
def dbOps : DB :=
  { root_path := [], memtable := [([1], Entry.Deleted), ([2], Entry.Present [6])]
    memtable_frozen := none, memtable_size := 4 }


/-! ## Key order lemmas -/

theorem keyCmp_cons (a b : Nat) (as bs : List Nat) :
    keyCmp (a :: as) (b :: bs) =
      if a < b then Ordering.lt else if b < a then Ordering.gt else keyCmp as bs := rfl

theorem keyCmp_cons_lt {a b : Nat} {as bs : List Nat} :
    keyCmp (a :: as) (b :: bs) = Ordering.lt ↔ a < b ∨ (a = b ∧ keyCmp as bs = Ordering.lt) := by
  rw [keyCmp_cons]
  by_cases h1 : a < b
  · rw [if_pos h1]
    exact ⟨fun _ => Or.inl h1, fun _ => rfl⟩
  · by_cases h2 : b < a
    · rw [if_neg h1, if_pos h2]
      constructor
      · intro h; exact absurd h (by decide)
      · intro h; exfalso; rcases h with h | ⟨rfl, -⟩ <;> omega
    · have hab : a = b := by omega
      subst hab
      rw [if_neg h1, if_neg h1]
      constructor
      · intro h; exact Or.inr ⟨rfl, h⟩
      · rintro (h | ⟨-, h⟩)
        · omega
        · exact h

theorem keyCmp_cons_eq {a b : Nat} {as bs : List Nat} :
    keyCmp (a :: as) (b :: bs) = Ordering.eq ↔ a = b ∧ keyCmp as bs = Ordering.eq := by
  rw [keyCmp_cons]
  by_cases h1 : a < b
  · rw [if_pos h1]
    constructor
    · intro h; exact absurd h (by decide)
    · rintro ⟨rfl, -⟩; exact (Nat.lt_irrefl a h1).elim
  · by_cases h2 : b < a
    · rw [if_neg h1, if_pos h2]
      constructor
      · intro h; exact absurd h (by decide)
      · rintro ⟨rfl, -⟩; exact (Nat.lt_irrefl a h2).elim
    · have hab : a = b := by omega
      subst hab
      rw [if_neg h1, if_neg h1]
      exact ⟨fun h => ⟨rfl, h⟩, fun h => h.2⟩

theorem keyCmp_cons_gt {a b : Nat} {as bs : List Nat} :
    keyCmp (a :: as) (b :: bs) = Ordering.gt ↔ b < a ∨ (a = b ∧ keyCmp as bs = Ordering.gt) := by
  rw [keyCmp_cons]
  by_cases h1 : a < b
  · rw [if_pos h1]
    constructor
    · intro h; exact absurd h (by decide)
    · intro h; exfalso; rcases h with h | ⟨rfl, -⟩ <;> omega
  · by_cases h2 : b < a
    · rw [if_neg h1, if_pos h2]
      exact ⟨fun _ => Or.inl h2, fun _ => rfl⟩
    · have hab : a = b := by omega
      subst hab
      rw [if_neg h1, if_neg h1]
      constructor
      · intro h; exact Or.inr ⟨rfl, h⟩
      · rintro (h | ⟨-, h⟩)
        · omega
        · exact h

theorem keyCmp_self (a : Key) : keyCmp a a = Ordering.eq := by
  induction a with
  | nil => rfl
  | cons x xs ih => rw [keyCmp_cons_eq]; exact ⟨rfl, ih⟩

theorem keyCmp_eq_iff {a b : Key} : keyCmp a b = Ordering.eq ↔ a = b := by
  constructor
  · intro h
    induction a generalizing b with
    | nil =>
      cases b with
      | nil => rfl
      | cons y ys => simp [keyCmp] at h
    | cons x xs ih =>
      cases b with
      | nil => simp [keyCmp] at h
      | cons y ys =>
        rw [keyCmp_cons_eq] at h
        rw [h.1, ih h.2]
  · rintro rfl; exact keyCmp_self a

theorem keyCmp_gt_iff_lt {a b : Key} : keyCmp a b = Ordering.gt ↔ keyCmp b a = Ordering.lt := by
  induction a generalizing b with
  | nil =>
    cases b with
    | nil => simp [keyCmp]
    | cons y ys => simp [keyCmp]
  | cons x xs ih =>
    cases b with
    | nil => simp [keyCmp]
    | cons y ys =>
      rw [keyCmp_cons_gt, keyCmp_cons_lt, ih]
      constructor
      · rintro (h | ⟨rfl, h⟩)
        · exact Or.inl h
        · exact Or.inr ⟨rfl, h⟩
      · rintro (h | ⟨rfl, h⟩)
        · exact Or.inl h
        · exact Or.inr ⟨rfl, h⟩

theorem keyLt_trans {a b c : Key} (hab : keyLt a b) (hbc : keyLt b c) : keyLt a c := by
  unfold keyLt at *
  induction a generalizing b c with
  | nil =>
    cases b with
    | nil => simp [keyCmp] at hab
    | cons y ys =>
      cases c with
      | nil => simp [keyCmp] at hbc
      | cons z zs => simp [keyCmp]
  | cons x xs ih =>
    cases b with
    | nil => simp [keyCmp] at hab
    | cons y ys =>
      cases c with
      | nil => simp [keyCmp] at hbc
      | cons z zs =>
        rw [keyCmp_cons_lt] at hab hbc ⊢
        rcases hab with h1 | ⟨rfl, h1⟩ <;> rcases hbc with h2 | ⟨rfl, h2⟩
        · exact Or.inl (Nat.lt_trans h1 h2)
        · exact Or.inl h1
        · exact Or.inl h2
        · exact Or.inr ⟨rfl, ih h1 h2⟩

theorem keyLt_irrefl (a : Key) : ¬ keyLt a a := by
  unfold keyLt; rw [keyCmp_self]; simp

theorem keyLt_ne {a b : Key} (h : keyLt a b) : a ≠ b := by
  rintro rfl; exact keyLt_irrefl a h

theorem keyCmp_trichotomy (a b : Key) :
    keyCmp a b = Ordering.lt ∨ keyCmp a b = Ordering.eq ∨ keyCmp a b = Ordering.gt := by
  cases keyCmp a b <;> simp
theorem keyLt_of_keyLt_of_not_gt {a b c : Key}
    (h1 : keyLt a b) (h2 : keyCmp b c ≠ Ordering.gt) : keyLt a c := by
  rcases keyCmp_trichotomy b c with h | h | h
  · exact keyLt_trans h1 h
  · rwa [keyCmp_eq_iff.mp h] at h1
  · exact absurd h h2

theorem keyLt_of_not_gt_of_keyLt {a b c : Key}
    (h1 : keyCmp a b ≠ Ordering.gt) (h2 : keyLt b c) : keyLt a c := by
  rcases keyCmp_trichotomy a b with h | h | h
  · exact keyLt_trans h h2
  · rwa [← keyCmp_eq_iff.mp h] at h2
  · exact absurd h h1

/-! ## Prefix versus lexicographic order -/

theorem prefix_keyCmp_not_gt {p k : Key} (h : p.isPrefixOf k = true) :
    keyCmp p k ≠ Ordering.gt := by
  induction p generalizing k with
  | nil => cases k <;> simp [keyCmp]
  | cons a as ih =>
    cases k with
    | nil => simp [List.isPrefixOf] at h
    | cons b bs =>
      simp only [List.isPrefixOf, Bool.and_eq_true, beq_iff_eq] at h
      obtain ⟨rfl, h2⟩ := h
      rw [Ne, keyCmp_cons_gt]
      rintro (h3 | ⟨-, h3⟩)
      · omega
      · exact ih h2 h3

/-- Keys starting with `p` form an interval in lexicographic order: a key
`k ≥ p` that does not start with `p` cannot be below a key `k2` that does. -/
theorem prefix_window {p k k2 : Key} :
    p.isPrefixOf k2 = true → keyCmp p k ≠ Ordering.gt → p.isPrefixOf k = false →
    keyCmp k k2 = Ordering.lt → False := by
  induction p generalizing k k2 with
  | nil => intro _ _ h3 _; simp [List.isPrefixOf] at h3
  | cons a as ih =>
    intro h1 h2 h3 h4
    cases k2 with
    | nil => simp [List.isPrefixOf] at h1
    | cons c cs =>
      simp only [List.isPrefixOf, Bool.and_eq_true, beq_iff_eq] at h1
      obtain ⟨rfl, h1⟩ := h1
      cases k with
      | nil => exact h2 (by simp [keyCmp])
      | cons b bs =>
        rw [keyCmp_cons_lt] at h4
        have h2' : ¬(b < a ∨ (a = b ∧ keyCmp as bs = Ordering.gt)) := fun hx =>
          h2 (keyCmp_cons_gt.mpr hx)
        rcases Nat.lt_trichotomy a b with hab | hab | hab
        · rcases h4 with h | ⟨rfl, -⟩ <;> omega
        · subst hab
          have h3' : as.isPrefixOf bs = false := by
            simpa [List.isPrefixOf] using h3
          rcases h4 with h | ⟨-, h⟩
          · omega
          · exact ih h1 (fun hg => h2' (Or.inr ⟨rfl, hg⟩)) h3' h
        · exact h2' (Or.inl hab)

/-! ## Memtable (`BTreeMap`) lemmas -/

theorem mtGet_none_of_forall {k : Key} {m : Memtable}
    (h : ∀ kv ∈ m, keyCmp k kv.1 ≠ Ordering.eq) : mtGet k m = none := by
  induction m with
  | nil => rfl
  | cons kv rest ih =>
    obtain ⟨k2, e2⟩ := kv
    simp only [mtGet]
    rw [if_neg (h (k2, e2) (List.mem_cons_self _ _))]
    exact ih fun kv hkv => h kv (List.mem_cons_of_mem _ hkv)

theorem mtGet_some_mem {k : Key} {m : Memtable} {e : Entry}
    (h : mtGet k m = some e) : (k, e) ∈ m := by
  induction m with
  | nil => simp [mtGet] at h
  | cons kv rest ih =>
    obtain ⟨k2, e2⟩ := kv
    simp only [mtGet] at h
    split at h
    · obtain rfl := keyCmp_eq_iff.mp (by assumption)
      obtain rfl : e2 = e := by injection h
      exact List.mem_cons_self _ _
    · exact List.mem_cons_of_mem _ (ih h)

theorem mtGet_of_sorted_mem {k : Key} {m : Memtable} {e : Entry}
    (hs : MtSorted m) (h : (k, e) ∈ m) : mtGet k m = some e := by
  induction m with
  | nil => simp at h
  | cons kv rest ih =>
    obtain ⟨k2, e2⟩ := kv
    rcases List.mem_cons.mp h with heq | hmem
    · obtain ⟨rfl, rfl⟩ := Prod.mk.injEq .. ▸ heq
      · simp [mtGet, keyCmp_self]
    · have hlt : keyLt k2 k := (List.pairwise_cons.mp hs).1 _ hmem
      simp only [mtGet]
      rw [if_neg]
      · exact ih (List.pairwise_cons.mp hs).2 hmem
      · intro hc
        exact keyLt_irrefl k2 (keyCmp_eq_iff.mp hc ▸ hlt)

theorem mtInsert_fst_get_self (k : Key) (e : Entry) (m : Memtable) :
    mtGet k (mtInsert k e m).1 = some e := by
  induction m with
  | nil => simp [mtInsert, mtGet, keyCmp_self]
  | cons kv rest ih =>
    obtain ⟨k2, e2⟩ := kv
    simp only [mtInsert]
    rcases keyCmp_trichotomy k k2 with h | h | h <;> rw [h] <;>
      simp only [mtGet, keyCmp_self, if_pos]
    rw [if_neg (by rw [h]; simp)]
    exact ih

theorem mtInsert_fst_get_other (k : Key) (e : Entry) (m : Memtable) (k2 : Key)
    (hne : k2 ≠ k) : mtGet k2 (mtInsert k e m).1 = mtGet k2 m := by
  have hne' : keyCmp k2 k ≠ Ordering.eq := fun hc => hne (keyCmp_eq_iff.mp hc)
  induction m with
  | nil => simp [mtInsert, mtGet, if_neg hne']
  | cons kv rest ih =>
    obtain ⟨k3, e3⟩ := kv
    simp only [mtInsert]
    rcases keyCmp_trichotomy k k3 with h | h | h <;> rw [h]
    · simp only [mtGet]
      rw [if_neg hne']
    · obtain rfl := keyCmp_eq_iff.mp h
      simp only [mtGet]
      rw [if_neg hne', if_neg hne']
    · simp only [mtGet]
      split
      · rfl
      · exact ih

theorem mtInsert_snd_some {k : Key} {e : Entry} {m : Memtable} {o : Entry}
    (h : (mtInsert k e m).2 = some o) : mtGet k m = some o := by
  induction m with
  | nil => simp [mtInsert] at h
  | cons kv rest ih =>
    obtain ⟨k2, e2⟩ := kv
    simp only [mtInsert] at h
    rcases keyCmp_trichotomy k k2 with hc | hc | hc <;> rw [hc] at h
    · simp at h
    · simp only at h
      obtain rfl : e2 = o := by injection h
      simp [mtGet, if_pos hc]
    · simp only [mtGet]
      rw [if_neg (by rw [hc]; simp)]
      exact ih h

theorem mtInsert_snd_of_get_none {k : Key} {e : Entry} {m : Memtable}
    (h : mtGet k m = none) : (mtInsert k e m).2 = none := by
  cases hs : (mtInsert k e m).2 with
  | none => rfl
  | some o => rw [mtInsert_snd_some hs] at h; cases h

theorem mtGet_none_of_lt_head {k k2 : Key} {e2 : Entry} {rest : Memtable}
    (hs : MtSorted ((k2, e2) :: rest)) (h : keyLt k k2) :
    mtGet k ((k2, e2) :: rest) = none := by
  obtain ⟨hb, hrest⟩ := List.pairwise_cons.mp hs
  apply mtGet_none_of_forall
  rintro ⟨k3, e3⟩ hkv hceq
  obtain rfl : k = k3 := keyCmp_eq_iff.mp hceq
  rcases List.mem_cons.mp hkv with h3 | h3
  · have h3' : k = k2 := congrArg Prod.fst h3
    rw [← h3'] at h
    exact keyLt_irrefl k h
  · exact keyLt_irrefl k (keyLt_trans h (hb _ h3))

theorem mtInsert_snd_sorted {k : Key} {e : Entry} {m : Memtable}
    (hs : MtSorted m) : (mtInsert k e m).2 = mtGet k m := by
  induction m with
  | nil => rfl
  | cons kv rest ih =>
    obtain ⟨k2, e2⟩ := kv
    obtain ⟨hb, hrest⟩ := List.pairwise_cons.mp hs
    cases hc : keyCmp k k2 with
    | lt =>
      rw [mtGet_none_of_lt_head hs hc]
      simp [mtInsert, hc]
    | eq =>
      obtain rfl := keyCmp_eq_iff.mp hc
      simp [mtInsert, mtGet, keyCmp_self]
    | gt =>
      have hne : ¬ keyCmp k k2 = Ordering.eq := by rw [hc]; simp
      simp only [mtGet, if_neg hne]
      rw [← ih hrest]
      simp [mtInsert, hc]

theorem mtInsert_mem {k : Key} {e : Entry} {m : Memtable} {kv : Key × Entry}
    (h : kv ∈ (mtInsert k e m).1) : kv = (k, e) ∨ kv ∈ m := by
  induction m with
  | nil => simpa [mtInsert] using h
  | cons kv2 rest ih =>
    obtain ⟨k2, e2⟩ := kv2
    simp only [mtInsert] at h
    rcases keyCmp_trichotomy k k2 with hc | hc | hc <;> rw [hc] at h
    · rcases List.mem_cons.mp h with h | h
      · exact Or.inl h
      · exact Or.inr h
    · rcases List.mem_cons.mp h with h | h
      · exact Or.inl h
      · exact Or.inr (List.mem_cons_of_mem _ h)
    · rcases List.mem_cons.mp h with h | h
      · exact Or.inr (h ▸ List.mem_cons_self _ _)
      · rcases ih h with h | h
        · exact Or.inl h
        · exact Or.inr (List.mem_cons_of_mem _ h)

theorem mtInsert_sorted (k : Key) (e : Entry) {m : Memtable}
    (hs : MtSorted m) : MtSorted (mtInsert k e m).1 := by
  induction m with
  | nil => simp [mtInsert, MtSorted]
  | cons kv rest ih =>
    obtain ⟨k2, e2⟩ := kv
    obtain ⟨hb, hrest⟩ := List.pairwise_cons.mp hs
    simp only [mtInsert]
    rcases keyCmp_trichotomy k k2 with hc | hc | hc <;> rw [hc]
    · refine List.pairwise_cons.mpr ⟨?_, hs⟩
      rintro ⟨k3, e3⟩ hkv
      rcases List.mem_cons.mp hkv with h | h
      · obtain rfl : k3 = k2 := congrArg Prod.fst h
        exact hc
      · exact keyLt_trans hc (hb _ h)
    · obtain rfl := keyCmp_eq_iff.mp hc
      exact List.pairwise_cons.mpr ⟨hb, hrest⟩
    · refine List.pairwise_cons.mpr ⟨?_, ih hrest⟩
      rintro kv hkv
      rcases mtInsert_mem hkv with rfl | h
      · exact keyCmp_gt_iff_lt.mp hc
      · exact hb _ h

theorem mtInsert_size_none (k : Key) (e : Entry) (m : Memtable)
    (h : (mtInsert k e m).2 = none) :
    mtSize (mtInsert k e m).1 = mtSize m + k.length + e.len := by
  induction m with
  | nil => simp [mtInsert, mtSize]
  | cons kv rest ih =>
    obtain ⟨k2, e2⟩ := kv
    simp only [mtInsert] at h ⊢
    rcases keyCmp_trichotomy k k2 with hc | hc | hc <;> rw [hc] at h ⊢
    · simp [mtSize]; omega
    · simp at h
    · simp only [mtSize] at *
      rw [ih h]
      omega

theorem mtInsert_size_some (k : Key) (e : Entry) (m : Memtable) (o : Entry)
    (h : (mtInsert k e m).2 = some o) :
    mtSize (mtInsert k e m).1 + o.len = mtSize m + e.len ∧
      k.length + o.len ≤ mtSize m := by
  induction m with
  | nil => simp [mtInsert] at h
  | cons kv rest ih =>
    obtain ⟨k2, e2⟩ := kv
    simp only [mtInsert] at h ⊢
    rcases keyCmp_trichotomy k k2 with hc | hc | hc <;> rw [hc] at h ⊢
    · simp at h
    · obtain rfl : e2 = o := by injection h
      obtain rfl := keyCmp_eq_iff.mp hc
      simp only [mtSize]
      omega
    · obtain ⟨ih1, ih2⟩ := ih h
      simp only [mtSize]
      omega

theorem mtInsert_keys_some (k : Key) (e : Entry) (m : Memtable) (o : Entry)
    (h : (mtInsert k e m).2 = some o) :
    mtKeys (mtInsert k e m).1 = mtKeys m := by
  induction m with
  | nil => simp [mtInsert] at h
  | cons kv rest ih =>
    obtain ⟨k2, e2⟩ := kv
    simp only [mtInsert] at h ⊢
    rcases keyCmp_trichotomy k k2 with hc | hc | hc <;> rw [hc] at h ⊢
    · simp at h
    · obtain rfl := keyCmp_eq_iff.mp hc
      simp [mtKeys]
    · show k2 :: mtKeys (mtInsert k e rest).1 = k2 :: mtKeys rest
      exact congrArg _ (ih h)

/-! ## Range lemmas -/

theorem rangeFrom_sublist (lo : Key) (m : Memtable) : (rangeFrom lo m).Sublist m := by
  induction m with
  | nil => simp [rangeFrom]
  | cons kv rest ih =>
    obtain ⟨k, e⟩ := kv
    simp only [rangeFrom]
    cases keyCmp k lo with
    | lt => exact ih.cons _
    | eq => exact ih.cons₂ _
    | gt => exact ih.cons₂ _

theorem rangeFrom_sorted (lo : Key) {m : Memtable} (hs : MtSorted m) :
    MtSorted (rangeFrom lo m) :=
  List.Pairwise.sublist (rangeFrom_sublist lo m) hs

theorem rangeFrom_mem {lo : Key} {m : Memtable} {kv : Key × Entry} :
    kv ∈ rangeFrom lo m ↔ kv ∈ m ∧ keyCmp kv.1 lo ≠ Ordering.lt := by
  induction m with
  | nil => simp [rangeFrom]
  | cons kv2 rest ih =>
    obtain ⟨k2, e2⟩ := kv2
    simp only [rangeFrom]
    cases hc : keyCmp k2 lo with
    | lt =>
      rw [ih]
      constructor
      · rintro ⟨h1, h2⟩
        exact ⟨List.mem_cons_of_mem _ h1, h2⟩
      · rintro ⟨h1, h2⟩
        rcases List.mem_cons.mp h1 with rfl | h1
        · exact absurd hc h2
        · exact ⟨h1, h2⟩
    | eq =>
      constructor
      · intro h
        rcases List.mem_cons.mp h with rfl | h
        · exact ⟨List.mem_cons_self _ _, by rw [hc]; simp⟩
        · obtain ⟨h1, h2⟩ := ih.mp h
          exact ⟨List.mem_cons_of_mem _ h1, h2⟩
      · rintro ⟨h1, h2⟩
        rcases List.mem_cons.mp h1 with rfl | h1
        · exact List.mem_cons_self _ _
        · exact List.mem_cons_of_mem _ (ih.mpr ⟨h1, h2⟩)
    | gt =>
      constructor
      · intro h
        rcases List.mem_cons.mp h with rfl | h
        · exact ⟨List.mem_cons_self _ _, by rw [hc]; simp⟩
        · obtain ⟨h1, h2⟩ := ih.mp h
          exact ⟨List.mem_cons_of_mem _ h1, h2⟩
      · rintro ⟨h1, h2⟩
        rcases List.mem_cons.mp h1 with rfl | h1
        · exact List.mem_cons_self _ _
        · exact List.mem_cons_of_mem _ (ih.mpr ⟨h1, h2⟩)

theorem mtGet_rangeFrom_of_lt {k lo : Key} (m : Memtable)
    (h : keyCmp k lo = Ordering.lt) : mtGet k (rangeFrom lo m) = none := by
  apply mtGet_none_of_forall
  intro kv hkv hceq
  obtain rfl := keyCmp_eq_iff.mp hceq
  exact (rangeFrom_mem.mp hkv).2 h

theorem mtGet_rangeFrom {k lo : Key} (m : Memtable)
    (h : keyCmp k lo ≠ Ordering.lt) : mtGet k (rangeFrom lo m) = mtGet k m := by
  induction m with
  | nil => rfl
  | cons kv2 rest ih =>
    obtain ⟨k2, e2⟩ := kv2
    simp only [rangeFrom]
    cases hc : keyCmp k2 lo with
    | lt =>
      rw [ih]
      have hne : keyCmp k k2 ≠ Ordering.eq := by
        intro hceq
        obtain rfl := keyCmp_eq_iff.mp hceq
        exact h hc
      simp only [mtGet]
      rw [if_neg hne]
    | eq => simp only [mtGet]; split <;> [rfl; exact ih]
    | gt => simp only [mtGet]; split <;> [rfl; exact ih]

/-! ## The two-cursor merge -/


theorem mergeKV_mem {xs ys : Memtable} {kv : Key × Entry}
    (h : kv ∈ mergeKV xs ys) : kv ∈ xs ∨ kv ∈ ys := by
  induction xs, ys using mergeKV.induct with
  | case1 ys => simp only [mergeKV] at h; exact Or.inr h
  | case2 x xs => simp only [mergeKV] at h; exact Or.inl h
  | case3 kx ex xs ky ey ys hc ih =>
    rw [mergeKV, hc] at h
    rcases List.mem_cons.mp h with rfl | h
    · exact Or.inl (List.mem_cons_self _ _)
    · rcases ih h with h | h
      · exact Or.inl (List.mem_cons_of_mem _ h)
      · exact Or.inr (List.mem_cons_of_mem _ h)
  | case4 kx ex xs ky ey ys hc ih =>
    rw [mergeKV, hc] at h
    rcases List.mem_cons.mp h with rfl | h
    · exact Or.inl (List.mem_cons_self _ _)
    · rcases ih h with h | h
      · exact Or.inl (List.mem_cons_of_mem _ h)
      · exact Or.inr h
  | case5 kx ex xs ky ey ys hc ih =>
    rw [mergeKV, hc] at h
    rcases List.mem_cons.mp h with rfl | h
    · exact Or.inr (List.mem_cons_self _ _)
    · rcases ih h with h | h
      · exact Or.inl h
      · exact Or.inr (List.mem_cons_of_mem _ h)

theorem mergeKV_sorted {xs ys : Memtable}
    (hx : MtSorted xs) (hy : MtSorted ys) : MtSorted (mergeKV xs ys) := by
  induction xs, ys using mergeKV.induct with
  | case1 ys => simp only [mergeKV]; exact hy
  | case2 x xs => simp only [mergeKV]; exact hx
  | case3 kx ex xs ky ey ys hc ih =>
    obtain ⟨hbx, hx'⟩ := List.pairwise_cons.mp hx
    obtain ⟨hby, hy'⟩ := List.pairwise_cons.mp hy
    rw [mergeKV, hc]
    refine List.pairwise_cons.mpr ⟨?_, ih hx' hy'⟩
    intro kv hkv
    obtain rfl : kx = ky := keyCmp_eq_iff.mp hc
    rcases mergeKV_mem hkv with h | h
    · exact hbx _ h
    · exact hby _ h
  | case4 kx ex xs ky ey ys hc ih =>
    obtain ⟨hbx, hx'⟩ := List.pairwise_cons.mp hx
    rw [mergeKV, hc]
    refine List.pairwise_cons.mpr ⟨?_, ih hx' hy⟩
    intro kv hkv
    rcases mergeKV_mem hkv with h | h
    · exact hbx _ h
    · rcases List.mem_cons.mp h with rfl | h
      · exact hc
      · exact keyLt_trans hc ((List.pairwise_cons.mp hy).1 _ h)
  | case5 kx ex xs ky ey ys hc ih =>
    obtain ⟨hby, hy'⟩ := List.pairwise_cons.mp hy
    have hlt : keyLt ky kx := keyCmp_gt_iff_lt.mp hc
    rw [mergeKV, hc]
    refine List.pairwise_cons.mpr ⟨?_, ih hx hy'⟩
    intro kv hkv
    rcases mergeKV_mem hkv with h | h
    · rcases List.mem_cons.mp h with rfl | h
      · exact hlt
      · exact keyLt_trans hlt ((List.pairwise_cons.mp hx).1 _ h)
    · exact hby _ h

theorem mtGet_mergeKV {xs ys : Memtable} (hx : MtSorted xs) (hy : MtSorted ys)
    (k : Key) : mtGet k (mergeKV xs ys) = (mtGet k xs).or (mtGet k ys) := by
  induction xs, ys using mergeKV.induct with
  | case1 ys =>
    simp only [mergeKV]
    cases h2 : mtGet k ys <;> simp [Option.or, mtGet, h2]
  | case2 x xs =>
    simp only [mergeKV]
    cases h2 : mtGet k (x :: xs) <;> simp [Option.or, mtGet, h2]
  | case3 kx ex xs ky ey ys hc ih =>
    obtain rfl : kx = ky := keyCmp_eq_iff.mp hc
    obtain ⟨hbx, hx'⟩ := List.pairwise_cons.mp hx
    obtain ⟨hby, hy'⟩ := List.pairwise_cons.mp hy
    rw [mergeKV, hc]
    by_cases hk : keyCmp k kx = Ordering.eq
    · obtain rfl := keyCmp_eq_iff.mp hk
      simp [mtGet, keyCmp_self, Option.or]
    · simp only [mtGet, if_neg hk]
      exact ih hx' hy'
  | case4 kx ex xs ky ey ys hc ih =>
    obtain ⟨hbx, hx'⟩ := List.pairwise_cons.mp hx
    rw [mergeKV, hc]
    by_cases hk : keyCmp k kx = Ordering.eq
    · obtain rfl := keyCmp_eq_iff.mp hk
      have hyn : mtGet k ((ky, ey) :: ys) = none := mtGet_none_of_lt_head hy hc
      simp [mtGet, keyCmp_self, hyn, Option.or]
    · simp only [mtGet, if_neg hk]
      exact ih hx' hy
  | case5 kx ex xs ky ey ys hc ih =>
    obtain ⟨hby, hy'⟩ := List.pairwise_cons.mp hy
    have hlt : keyLt ky kx := keyCmp_gt_iff_lt.mp hc
    rw [mergeKV, hc]
    by_cases hk : keyCmp k ky = Ordering.eq
    · obtain rfl := keyCmp_eq_iff.mp hk
      have hxn : mtGet k ((kx, ex) :: xs) = none := mtGet_none_of_lt_head hx hlt
      rw [hxn]
      simp [mtGet, keyCmp_self, Option.or]
    · simp only [mtGet, if_neg hk]
      exact ih hx hy'


theorem mergeKV_nil_left (ys : Memtable) : mergeKV [] ys = ys := by
  simp [mergeKV]

theorem mergeKV_nil_right (xs : Memtable) : mergeKV xs [] = xs := by
  cases xs <;> simp [mergeKV]

/-- The two-cursor loop is the single-cursor loop over the merged sequence. -/
theorem iterRun_eq_iterAll (ma mi : Memtable) (p : Key) :
    iterRun ma mi p = iterAll (mergeKV ma mi) p := by
  induction ma, mi, p using iterRun.induct with
  | case1 x => simp [iterRun, mergeKV, iterAll]
  | case2 km mr p h a ih =>
    rw [mergeKV_nil_right]
    rw [mergeKV_nil_right] at ih
    simp only [iterRun, iterAll]
    rw [if_pos h, if_pos h, ih]
  | case3 km mr p h ih =>
    rw [mergeKV_nil_right]
    rw [mergeKV_nil_right] at ih
    simp only [iterRun, iterAll]
    rw [if_pos h, if_pos h, ih]
  | case4 km em mr p h =>
    cases em <;>
      (rw [mergeKV_nil_right]; simp only [iterRun, iterAll]; rw [if_neg h, if_neg h])
  | case5 ki ir p h a ih =>
    rw [mergeKV_nil_left]
    rw [mergeKV_nil_left] at ih
    simp only [iterRun, iterAll]
    rw [if_pos h, if_pos h, ih]
  | case6 ki ir p h ih =>
    rw [mergeKV_nil_left]
    rw [mergeKV_nil_left] at ih
    simp only [iterRun, iterAll]
    rw [if_pos h, if_pos h, ih]
  | case7 ki ei ir p h =>
    cases ei <;>
      (rw [mergeKV_nil_left]; simp only [iterRun, iterAll]; rw [if_neg h, if_neg h])
  | case8 km mr ki ei ir p hc h a ih =>
    cases ei <;>
      (simp only [iterRun, mergeKV, iterAll, hc]; rw [if_pos h, if_pos h, ih])
  | case9 km mr ki ei ir p hc h ih =>
    cases ei <;>
      (simp only [iterRun, mergeKV, iterAll, hc]; rw [if_pos h, if_pos h, ih])
  | case10 km em mr ki ei ir p hc h =>
    cases em <;> cases ei <;>
      (simp only [iterRun, mergeKV, iterAll, hc]; rw [if_neg h, if_neg h])
  | case11 km mr ki ei ir p hc h a ih =>
    cases ei <;>
      (simp only [iterRun, mergeKV, iterAll, hc]; rw [if_pos h, if_pos h, ih])
  | case12 km mr ki ei ir p hc h ih =>
    cases ei <;>
      (simp only [iterRun, mergeKV, iterAll, hc]; rw [if_pos h, if_pos h, ih])
  | case13 km em mr ki ei ir p hc h =>
    cases em <;> cases ei <;>
      (simp only [iterRun, mergeKV, iterAll, hc]; rw [if_neg h, if_neg h])
  | case14 km em mr ki ir p hc h a ih =>
    cases em <;>
      (simp only [iterRun, mergeKV, iterAll, hc]; rw [if_pos h, if_pos h, ih])
  | case15 km em mr ki ir p hc h ih =>
    cases em <;>
      (simp only [iterRun, mergeKV, iterAll, hc]; rw [if_pos h, if_pos h, ih])
  | case16 km em mr ki ei ir p hc h =>
    cases em <;> cases ei <;>
      (simp only [iterRun, mergeKV, iterAll, hc]; rw [if_neg h, if_neg h])

theorem iterAll_mem_sub {M : Memtable} {p k : Key} {v : Value}
    (h : (k, v) ∈ iterAll M p) : (k, Entry.Present v) ∈ M := by
  induction M with
  | nil => simp [iterAll] at h
  | cons kv rest ih =>
    obtain ⟨k2, e2⟩ := kv
    simp only [iterAll] at h
    split at h
    · cases e2 with
      | Present d =>
        rcases List.mem_cons.mp h with heq | h
        · injection heq with hk hv
          subst hk; subst hv
          exact List.mem_cons_self _ _
        · exact List.mem_cons_of_mem _ (ih h)
      | Deleted => exact List.mem_cons_of_mem _ (ih h)
    · simp at h

theorem iterAll_keys_sorted {M : Memtable} (p : Key) (hs : MtSorted M) :
    List.Pairwise keyLt ((iterAll M p).map Prod.fst) := by
  induction M with
  | nil => simp [iterAll]
  | cons kv rest ih =>
    obtain ⟨k2, e2⟩ := kv
    obtain ⟨hb, hrest⟩ := List.pairwise_cons.mp hs
    simp only [iterAll]
    split
    · cases e2 with
      | Present d =>
        simp only [List.map_cons]
        refine List.pairwise_cons.mpr ⟨?_, ih hrest⟩
        intro k3 hk3
        obtain ⟨⟨k4, v4⟩, hm, rfl⟩ := List.mem_map.mp hk3
        exact hb _ (iterAll_mem_sub hm)
      | Deleted => exact ih hrest
    · simp

theorem iterAll_mem_iff {M : Memtable} {p k : Key} {v : Value}
    (hs : MtSorted M) (hge : ∀ kv ∈ M, keyCmp kv.1 p ≠ Ordering.lt) :
    (k, v) ∈ iterAll M p ↔
      p.isPrefixOf k = true ∧ mtGet k M = some (Entry.Present v) := by
  induction M with
  | nil => simp [iterAll, mtGet]
  | cons kv rest ih =>
    obtain ⟨k2, e2⟩ := kv
    obtain ⟨hb, hrest⟩ := List.pairwise_cons.mp hs
    have hge2 : ∀ kv ∈ rest, keyCmp kv.1 p ≠ Ordering.lt := fun kv hkv =>
      hge kv (List.mem_cons_of_mem _ hkv)
    have hgetrest_none : mtGet k2 rest = none :=
      mtGet_none_of_forall fun kv hkv hceq => by
        have hk : k2 = kv.1 := keyCmp_eq_iff.mp hceq
        have hlt := hb _ hkv
        rw [← hk] at hlt
        exact keyLt_irrefl k2 hlt
    by_cases hp : p.isPrefixOf k2 = true
    · cases e2 with
      | Present d =>
        simp only [iterAll, if_pos hp]
        constructor
        · intro h
          rcases List.mem_cons.mp h with heq | h
          · injection heq with hk hv
            subst hk; subst hv
            exact ⟨hp, by simp [mtGet, keyCmp_self]⟩
          · obtain ⟨h1, h2⟩ := (ih hrest hge2).mp h
            have hck : ¬ keyCmp k k2 = Ordering.eq := by
              intro hceq
              obtain rfl := keyCmp_eq_iff.mp hceq
              rw [hgetrest_none] at h2
              cases h2
            refine ⟨h1, ?_⟩
            simp only [mtGet]
            rw [if_neg hck]
            exact h2
        · rintro ⟨h1, h2⟩
          simp only [mtGet] at h2
          by_cases hck : keyCmp k k2 = Ordering.eq
          · obtain rfl := keyCmp_eq_iff.mp hck
            rw [if_pos (keyCmp_self k)] at h2
            simp only [Option.some.injEq, Entry.Present.injEq] at h2
            subst h2
            exact List.mem_cons_self _ _
          · rw [if_neg hck] at h2
            exact List.mem_cons_of_mem _ ((ih hrest hge2).mpr ⟨h1, h2⟩)
      | Deleted =>
        simp only [iterAll, if_pos hp]
        rw [ih hrest hge2]
        constructor
        · rintro ⟨h1, h2⟩
          have hck : ¬ keyCmp k k2 = Ordering.eq := by
            intro hceq
            obtain rfl := keyCmp_eq_iff.mp hceq
            rw [hgetrest_none] at h2
            cases h2
          refine ⟨h1, ?_⟩
          simp only [mtGet]
          rw [if_neg hck]
          exact h2
        · rintro ⟨h1, h2⟩
          simp only [mtGet] at h2
          by_cases hck : keyCmp k k2 = Ordering.eq
          · rw [if_pos hck] at h2
            cases h2
          · rw [if_neg hck] at h2
            exact ⟨h1, h2⟩
    · simp only [iterAll, if_neg hp]
      simp only [List.not_mem_nil, false_iff]
      rintro ⟨h1, h2⟩
      have hmem := mtGet_some_mem h2
      rcases List.mem_cons.mp hmem with heq | hmem2
      · have hkk2 : k = k2 := congrArg Prod.fst heq
        rw [hkk2] at h1
        rw [h1] at hp
        exact hp rfl
      · have hk2k : keyLt k2 k := hb _ hmem2
        have hk2p : keyCmp p k2 ≠ Ordering.gt := fun hg =>
          hge (k2, e2) (List.mem_cons_self _ _) (keyCmp_gt_iff_lt.mp hg)
        have hp' : p.isPrefixOf k2 = false := by
          cases hx : List.isPrefixOf p k2
          · rfl
          · exact absurd hx hp
        exact prefix_window h1 hk2p hp' hk2k

/-! ## Store-level characterizations -/


theorem seekList_eq_iterAll (db : DB) (p : Key) :
    DB.seekList db p =
      iterAll (mergeKV (rangeFrom p db.memtable) (rangeFrom p (frozenD db))) p :=
  iterRun_eq_iterAll _ _ _

theorem seekList_mem_iff {db : DB} {p k : Key} {v : Value} (hwf : DBWF db) :
    (k, v) ∈ DB.seekList db p ↔
      p.isPrefixOf k = true ∧
        (mtGet k db.memtable).or (mtGet k (frozenD db)) = some (Entry.Present v) := by
  obtain ⟨hs1, hs2⟩ := hwf
  have hA := rangeFrom_sorted p hs1
  have hB := rangeFrom_sorted p hs2
  have hge : ∀ kv ∈ mergeKV (rangeFrom p db.memtable) (rangeFrom p (frozenD db)),
      keyCmp kv.1 p ≠ Ordering.lt := by
    intro kv hkv
    rcases mergeKV_mem hkv with h | h
    · exact (rangeFrom_mem.mp h).2
    · exact (rangeFrom_mem.mp h).2
  rw [seekList_eq_iterAll, iterAll_mem_iff (mergeKV_sorted hA hB) hge,
    mtGet_mergeKV hA hB]
  constructor
  · rintro ⟨h1, h2⟩
    have hk : keyCmp k p ≠ Ordering.lt := fun hl =>
      prefix_keyCmp_not_gt h1 (keyCmp_gt_iff_lt.mpr hl)
    rw [mtGet_rangeFrom _ hk, mtGet_rangeFrom _ hk] at h2
    exact ⟨h1, h2⟩
  · rintro ⟨h1, h2⟩
    have hk : keyCmp k p ≠ Ordering.lt := fun hl =>
      prefix_keyCmp_not_gt h1 (keyCmp_gt_iff_lt.mpr hl)
    rw [mtGet_rangeFrom _ hk, mtGet_rangeFrom _ hk]
    exact ⟨h1, h2⟩

theorem seekList_keys_sorted {db : DB} (p : Key) (hwf : DBWF db) :
    List.Pairwise keyLt ((DB.seekList db p).map Prod.fst) := by
  rw [seekList_eq_iterAll]
  exact iterAll_keys_sorted p
    (mergeKV_sorted (rangeFrom_sorted p hwf.1) (rangeFrom_sorted p hwf.2))

theorem get_eq_or (db : DB) (k : Key) :
    DB.get db k =
      Except.ok
        (match (mtGet k db.memtable).or (mtGet k (frozenD db)) with
         | some (Entry.Present d) => some d
         | some Entry.Deleted => none
         | none => none) := by
  cases h1 : mtGet k db.memtable with
  | some e =>
    cases e <;>
      simp [DB.get, DB._get_from_memtable, frozenD, h1, Option.or]
  | none =>
    cases hf : db.memtable_frozen with
    | none => simp [DB.get, DB._get_from_memtable, frozenD, h1, hf, Option.or, mtGet]
    | some s =>
      cases h2 : mtGet k s with
      | none => simp [DB.get, DB._get_from_memtable, frozenD, h1, hf, h2, Option.or]
      | some e2 =>
        cases e2 <;>
          simp [DB.get, DB._get_from_memtable, frozenD, h1, hf, h2, Option.or]

theorem get_ok_some_iff {db : DB} {k : Key} {v : Value} :
    DB.get db k = Except.ok (some v) ↔
      (mtGet k db.memtable).or (mtGet k (frozenD db)) = some (Entry.Present v) := by
  rw [get_eq_or]
  cases hx : (mtGet k db.memtable).or (mtGet k (frozenD db)) with
  | none => simp
  | some e =>
    cases e with
    | Present d => simp
    | Deleted => simp

/-! ## Write-path case analysis -/

theorem put_entry_eq_of_lt {db : DB} {k : Key} {e : Entry} {s2 : Nat}
    {m2 : Memtable} {o : Option Entry}
    (hs2 : s2 = (match o with
      | some ov => db.memtable_size + e.len - ov.len
      | none => db.memtable_size + e.len + k.length))
    (hins : mtInsert k e db.memtable = (m2, o))
    (hlt : s2 < MEMTABLE_MAX_SIZE_BYTES) :
    DB._put_entry db k e = some (Except.ok
      { root_path := db.root_path, memtable := m2,
        memtable_frozen := db.memtable_frozen, memtable_size := s2 }) := by
  cases o with
  | none =>
    simp only at hs2
    simp only [DB._put_entry, hins, ← hs2]
    rw [if_neg (not_le.mpr hlt)]
  | some ov =>
    simp only at hs2
    simp only [DB._put_entry, hins, ← hs2]
    rw [if_neg (not_le.mpr hlt)]

theorem put_entry_eq_of_ge_none {db : DB} {k : Key} {e : Entry} {s2 : Nat}
    {m2 : Memtable} {o : Option Entry}
    (hs2 : s2 = (match o with
      | some ov => db.memtable_size + e.len - ov.len
      | none => db.memtable_size + e.len + k.length))
    (hins : mtInsert k e db.memtable = (m2, o))
    (hge : MEMTABLE_MAX_SIZE_BYTES ≤ s2)
    (hf : db.memtable_frozen = none) :
    DB._put_entry db k e = some (Except.ok
      { root_path := db.root_path, memtable := [],
        memtable_frozen := some m2, memtable_size := s2 }) := by
  cases o with
  | none =>
    simp only at hs2
    simp only [DB._put_entry, hins, ← hs2]
    rw [if_pos hge]
    simp only [DB._swap_and_compact, hf]
  | some ov =>
    simp only at hs2
    simp only [DB._put_entry, hins, ← hs2]
    rw [if_pos hge]
    simp only [DB._swap_and_compact, hf]

theorem put_entry_eq_of_ge_some {db : DB} {k : Key} {e : Entry} {s2 : Nat}
    {m2 : Memtable} {o : Option Entry} {f : Memtable}
    (hs2 : s2 = (match o with
      | some ov => db.memtable_size + e.len - ov.len
      | none => db.memtable_size + e.len + k.length))
    (hins : mtInsert k e db.memtable = (m2, o))
    (hge : MEMTABLE_MAX_SIZE_BYTES ≤ s2)
    (hf : db.memtable_frozen = some f) :
    DB._put_entry db k e = none := by
  cases o with
  | none =>
    simp only at hs2
    simp only [DB._put_entry, hins, ← hs2]
    rw [if_pos hge]
    simp only [DB._swap_and_compact, hf]
  | some ov =>
    simp only at hs2
    simp only [DB._put_entry, hins, ← hs2]
    rw [if_pos hge]
    simp only [DB._swap_and_compact, hf]

/-- Inversion: every successful `_put_entry` call has one of the two shapes
(no freeze, or freeze from a state with no frozen memtable). -/
theorem put_entry_ok_inv {db db' : DB} {k : Key} {e : Entry}
    (hok : DB._put_entry db k e = some (Except.ok db')) :
    ∃ m2 o s2,
      s2 = (match o with
        | some ov => db.memtable_size + e.len - ov.len
        | none => db.memtable_size + e.len + k.length) ∧
      mtInsert k e db.memtable = (m2, o) ∧
      ((s2 < MEMTABLE_MAX_SIZE_BYTES ∧
          db' = { root_path := db.root_path, memtable := m2,
                  memtable_frozen := db.memtable_frozen, memtable_size := s2 }) ∨
        (MEMTABLE_MAX_SIZE_BYTES ≤ s2 ∧ db.memtable_frozen = none ∧
          db' = { root_path := db.root_path, memtable := [],
                  memtable_frozen := some m2, memtable_size := s2 })) := by
  refine ⟨(mtInsert k e db.memtable).1, (mtInsert k e db.memtable).2, _, rfl, rfl, ?_⟩
  by_cases hge : MEMTABLE_MAX_SIZE_BYTES ≤ (match (mtInsert k e db.memtable).2 with
      | some ov => db.memtable_size + e.len - ov.len
      | none => db.memtable_size + e.len + k.length)
  · cases hf : db.memtable_frozen with
    | some f =>
      rw [put_entry_eq_of_ge_some rfl rfl hge hf] at hok
      cases hok
    | none =>
      rw [put_entry_eq_of_ge_none rfl rfl hge hf] at hok
      injection hok with h2
      injection h2 with h3
      exact Or.inr ⟨hge, rfl, h3.symm⟩
  · rw [put_entry_eq_of_lt rfl rfl (not_le.mp hge)] at hok
    injection hok with h2
    injection h2 with h3
    exact Or.inl ⟨not_le.mp hge, h3.symm⟩

theorem swap_eq_none_iff {db : DB} :
    DB._swap_and_compact db = none ↔ db.memtable_frozen.isSome = true := by
  cases hf : db.memtable_frozen <;> simp [DB._swap_and_compact, hf]

theorem swap_eq_of_none {db : DB} (hf : db.memtable_frozen = none) :
    DB._swap_and_compact db =
      some { db with memtable := [], memtable_frozen := some db.memtable } := by
  simp [DB._swap_and_compact, hf]

theorem swap_inv {db db' : DB} (h : DB._swap_and_compact db = some db') :
    db.memtable_frozen = none ∧
      db' = { db with memtable := [], memtable_frozen := some db.memtable } := by
  cases hf : db.memtable_frozen with
  | some f => simp [DB._swap_and_compact, hf] at h
  | none =>
    simp only [DB._swap_and_compact, hf, Option.some.injEq] at h
    exact ⟨rfl, h.symm⟩

theorem put_entry_size_inv {db db' : DB} {k : Key} {e : Entry}
    (hok : DB._put_entry db k e = some (Except.ok db'))
    (hinv : db.memtable_size = mtSize db.memtable + mtSize (frozenD db)) :
    db'.memtable_size = mtSize db'.memtable + mtSize (frozenD db') := by
  obtain ⟨m2, o, s2, hs2, hins, hcase⟩ := put_entry_ok_inv hok
  cases o with
  | none =>
    simp only at hs2
    have hsz : mtSize m2 = mtSize db.memtable + k.length + e.len := by
      have h1 := mtInsert_size_none k e db.memtable (by rw [hins])
      rwa [hins] at h1
    rcases hcase with ⟨hlt, rfl⟩ | ⟨hge, hfz, rfl⟩
    · simp only [frozenD] at hinv ⊢
      rw [hs2, hinv, hsz]
      omega
    · simp only [frozenD, hfz, Option.getD] at hinv
      simp only [frozenD, Option.getD, mtSize] at *
      omega
  | some ov =>
    simp only at hs2
    have h1 := mtInsert_size_some k e db.memtable ov (by rw [hins])
    rw [hins] at h1
    have hsz1 : mtSize m2 + ov.len = mtSize db.memtable + e.len := h1.1
    have hsz2 : k.length + ov.len ≤ mtSize db.memtable := h1.2
    rcases hcase with ⟨hlt, rfl⟩ | ⟨hge, hfz, rfl⟩
    · simp only [frozenD] at hinv ⊢
      rw [hs2, hinv]
      omega
    · simp only [frozenD, hfz, Option.getD] at hinv
      simp only [frozenD, Option.getD, mtSize] at *
      omega

theorem put_entry_wf {db db' : DB} {k : Key} {e : Entry}
    (hok : DB._put_entry db k e = some (Except.ok db'))
    (hwf : DBWF db) : DBWF db' := by
  obtain ⟨m2, o, s2, hs2, hins, hcase⟩ := put_entry_ok_inv hok
  have hm2 : MtSorted m2 := by
    have h1 := mtInsert_sorted k e hwf.1
    rwa [hins] at h1
  rcases hcase with ⟨hlt, rfl⟩ | ⟨hge, hfz, rfl⟩
  · exact ⟨hm2, hwf.2⟩
  · exact ⟨by simp [MtSorted], by simpa [frozenD] using hm2⟩

theorem reachable_size_inv {db : DB} (h : Reachable db) :
    db.memtable_size = mtSize db.memtable + mtSize (frozenD db) := by
  induction h with
  | init path => simp [dbInit, frozenD, mtSize]
  | putStep k v hr hok ih => exact put_entry_size_inv hok ih
  | delStep k hr hok ih => exact put_entry_size_inv hok ih
  | freezeStep hr hsw ih =>
    obtain ⟨hfz, rfl⟩ := swap_inv hsw
    simp only [frozenD, hfz, Option.getD, mtSize] at ih
    simp only [frozenD, Option.getD, mtSize]
    omega

theorem reachable_wf {db : DB} (h : Reachable db) : DBWF db := by
  induction h with
  | init path => exact ⟨by simp [dbInit, MtSorted], by simp [dbInit, frozenD, MtSorted]⟩
  | putStep k v hr hok ih => exact put_entry_wf hok ih
  | delStep k hr hok ih => exact put_entry_wf hok ih
  | freezeStep hr hsw ih =>
    obtain ⟨hfz, rfl⟩ := swap_inv hsw
    exact ⟨by simp [MtSorted], by simpa [frozenD] using ih.1⟩

theorem put_entry_get_same {db db' : DB} {k : Key} {e : Entry}
    (hok : DB._put_entry db k e = some (Except.ok db')) :
    (mtGet k db'.memtable).or (mtGet k (frozenD db')) = some e := by
  obtain ⟨m2, o, s2, hs2, hins, hcase⟩ := put_entry_ok_inv hok
  have hget : mtGet k m2 = some e := by
    have h1 := mtInsert_fst_get_self k e db.memtable
    rwa [hins] at h1
  rcases hcase with ⟨hlt, rfl⟩ | ⟨hge, hfz, rfl⟩
  · simp [hget, Option.or]
  · simp [frozenD, mtGet, hget, Option.or]

theorem put_entry_get_other {db db' : DB} {k k2 : Key} {e : Entry}
    (hok : DB._put_entry db k e = some (Except.ok db')) (hne : k2 ≠ k) :
    (mtGet k2 db'.memtable).or (mtGet k2 (frozenD db')) =
      (mtGet k2 db.memtable).or (mtGet k2 (frozenD db)) := by
  obtain ⟨m2, o, s2, hs2, hins, hcase⟩ := put_entry_ok_inv hok
  have hget : mtGet k2 m2 = mtGet k2 db.memtable := by
    have h1 := mtInsert_fst_get_other k e db.memtable k2 hne
    rwa [hins] at h1
  rcases hcase with ⟨hlt, rfl⟩ | ⟨hge, hfz, rfl⟩
  · simp only [frozenD, hget]
  · cases hx : mtGet k2 db.memtable <;>
      simp [frozenD, hfz, mtGet, hget, hx, Option.or]

theorem applyOp_put_step {db db1 : DB} {k2 : Key} {v : Value}
    (hop : applyOp db (Op.put k2 v) = some db1) (k : Key) :
    (mtGet k db1.memtable).or (mtGet k (frozenD db1)) =
      if k2 = k then some (Entry.Present v)
      else (mtGet k db.memtable).or (mtGet k (frozenD db)) := by
  simp only [applyOp] at hop
  cases hput : DB.put db k2 v with
  | none => rw [hput] at hop; cases hop
  | some r =>
    rw [hput] at hop
    cases r with
    | error err => cases hop
    | ok dbx =>
      obtain rfl : dbx = db1 := by injection hop
      by_cases hk : k2 = k
      · subst hk
        rw [if_pos rfl]
        exact put_entry_get_same hput
      · rw [if_neg hk]
        exact put_entry_get_other hput fun hc => hk hc.symm

theorem applyOp_del_step {db db1 : DB} {k2 : Key}
    (hop : applyOp db (Op.del k2) = some db1) (k : Key) :
    (mtGet k db1.memtable).or (mtGet k (frozenD db1)) =
      if k2 = k then some Entry.Deleted
      else (mtGet k db.memtable).or (mtGet k (frozenD db)) := by
  simp only [applyOp] at hop
  cases hput : DB.delete db k2 with
  | none => rw [hput] at hop; cases hop
  | some r =>
    rw [hput] at hop
    cases r with
    | error err => cases hop
    | ok dbx =>
      obtain rfl : dbx = db1 := by injection hop
      by_cases hk : k2 = k
      · subst hk
        rw [if_pos rfl]
        exact put_entry_get_same hput
      · rw [if_neg hk]
        exact put_entry_get_other hput fun hc => hk hc.symm

theorem applyOps_get {ops : List Op} {db db' : DB}
    (h : applyOps db ops = some db') (k : Key) :
    (mtGet k db'.memtable).or (mtGet k (frozenD db')) =
      ops.foldl
        (fun acc op =>
          match op with
          | Op.put k2 v => if k2 = k then some (Entry.Present v) else acc
          | Op.del k2 => if k2 = k then some Entry.Deleted else acc)
        ((mtGet k db.memtable).or (mtGet k (frozenD db))) := by
  induction ops generalizing db with
  | nil =>
    simp only [applyOps, Option.some.injEq] at h
    subst h
    rfl
  | cons op rest ih =>
    simp only [applyOps] at h
    cases hop : applyOp db op with
    | none => rw [hop] at h; cases h
    | some db1 =>
      rw [hop] at h
      have h1 : applyOps db1 rest = some db' := h
      rw [List.foldl_cons, ih h1]
      cases op with
      | put k2 v => rw [applyOp_put_step hop k]
      | del k2 => rw [applyOp_del_step hop k]

theorem lastWrite_eq_entry_fold (ops : List Op) (k : Key) (init : Option Entry) :
    ops.foldl
      (fun acc op =>
        match op with
        | Op.put k2 v => if k2 = k then some v else acc
        | Op.del k2 => if k2 = k then none else acc)
      (match init with
       | some (Entry.Present d) => some d
       | some Entry.Deleted => none
       | none => none) =
    (match ops.foldl
        (fun acc op =>
          match op with
          | Op.put k2 v => if k2 = k then some (Entry.Present v) else acc
          | Op.del k2 => if k2 = k then some Entry.Deleted else acc)
        init with
     | some (Entry.Present d) => some d
     | some Entry.Deleted => none
     | none => none) := by
  induction ops generalizing init with
  | nil => rfl
  | cons op rest ih =>
    cases op with
    | put k2 v =>
      simp only [List.foldl_cons]
      by_cases hk : k2 = k
      · rw [if_pos hk, if_pos hk]
        exact ih (some (Entry.Present v))
      · rw [if_neg hk, if_neg hk]
        exact ih init
    | del k2 =>
      simp only [List.foldl_cons]
      by_cases hk : k2 = k
      · rw [if_pos hk, if_pos hk]
        exact ih (some Entry.Deleted)
      · rw [if_neg hk, if_neg hk]
        exact ih init

theorem put_entry_some_ok {db : DB} {k : Key} {e : Entry} {r : Except DBError DB}
    (h : DB._put_entry db k e = some r) : ∃ d, r = Except.ok d := by
  simp only [DB._put_entry] at h
  split at h
  · split at h
    · injection h with h2
      exact ⟨_, h2.symm⟩
    · cases h
  · injection h with h2
    exact ⟨_, h2.symm⟩

theorem put_entry_size_fresh {db db' : DB} {k : Key} {e : Entry}
    (hget : mtGet k db.memtable = none)
    (hok : DB._put_entry db k e = some (Except.ok db')) :
    db'.memtable_size = db.memtable_size + e.len + k.length := by
  obtain ⟨m2, o, s2, hs2, hins, hcase⟩ := put_entry_ok_inv hok
  have ho : o = none := by
    have h1 := mtInsert_snd_of_get_none (e := e) hget
    rw [hins] at h1
    exact h1
  subst ho
  simp only at hs2
  rcases hcase with ⟨hlt, rfl⟩ | ⟨hge, hfz, rfl⟩ <;> exact hs2

theorem put_entry_size_overwrite {db db' : DB} {k : Key} {e o : Entry}
    (hr : Reachable db)
    (hget : mtGet k db.memtable = some o)
    (hok : DB._put_entry db k e = some (Except.ok db')) :
    db'.memtable_size + o.len = db.memtable_size + e.len := by
  have hwf := reachable_wf hr
  have hsz := reachable_size_inv hr
  obtain ⟨m2, o2, s2, hs2, hins, hcase⟩ := put_entry_ok_inv hok
  have ho2 : o2 = some o := by
    have h1 := mtInsert_snd_sorted (k := k) (e := e) hwf.1
    rw [hins] at h1
    have h2 : o2 = mtGet k db.memtable := h1
    rw [hget] at h2
    exact h2
  subst ho2
  simp only at hs2
  have hb := mtInsert_size_some k e db.memtable o (by rw [hins])
  rw [hins] at hb
  have hb2 : k.length + o.len ≤ mtSize db.memtable := hb.2
  rcases hcase with ⟨hlt, rfl⟩ | ⟨hge, hfz, rfl⟩ <;>
    (show s2 + o.len = db.memtable_size + e.len; omega)



/-! ## Concrete executions of the sample stores -/

theorem bigVal1_length : bigVal1.length = 1048574 := by
  rw [show bigVal1 = List.replicate 1048574 7 from rfl, List.length_replicate]

theorem bigVal2_length : bigVal2.length = 1048575 := by
  rw [show bigVal2 = List.replicate 1048575 7 from rfl, List.length_replicate]

theorem reachable_dbA : Reachable dbA :=
  Reachable.putStep [0] [1, 2] (Reachable.init []) (by rfl)

theorem put_fresh_generic (path : List Nat) (v : Value) (hv : v.length = 1048574) :
    DB.put (dbInit path) [0] v = some (Except.ok
      { root_path := path, memtable := [([0], Entry.Present v)],
        memtable_frozen := none, memtable_size := 1048575 }) := by
  refine put_entry_eq_of_lt ?_ rfl ?_
  · show (1048575 : Nat) = 0 + v.length + 1
    rw [hv]
  · norm_num [MEMTABLE_MAX_SIZE_BYTES]

theorem put_dbBig1 : DB.put (dbInit []) [0] bigVal1 = some (Except.ok dbBig) :=
  put_fresh_generic [] bigVal1 bigVal1_length

theorem reachable_dbBig : Reachable dbBig :=
  Reachable.putStep [0] bigVal1 (Reachable.init []) put_dbBig1

theorem put_over_generic (v1 v2 : Value) (h1 : v1.length = 1048574)
    (h2 : v2.length = 1048575) :
    DB.put
      { root_path := [], memtable := [([0], Entry.Present v1)],
        memtable_frozen := none, memtable_size := 1048575 } [0] v2 =
    some (Except.ok
      { root_path := [], memtable := [],
        memtable_frozen := some [([0], Entry.Present v2)],
        memtable_size := 1048576 }) := by
  refine put_entry_eq_of_ge_none (o := some (Entry.Present v1)) ?_ rfl ?_ rfl
  · show (1048576 : Nat) = 1048575 + v2.length - v1.length
    rw [h1, h2]
  · norm_num [MEMTABLE_MAX_SIZE_BYTES]

theorem put_dbBig_overwrite : DB.put dbBig [0] bigVal2 = some (Except.ok dbBig2) :=
  put_over_generic bigVal1 bigVal2 bigVal1_length bigVal2_length

theorem del_generic (v1 : Value) :
    DB.delete
      { root_path := [], memtable := [([0], Entry.Present v1)],
        memtable_frozen := none, memtable_size := 1048575 } [2] =
    some (Except.ok
      { root_path := [], memtable := [],
        memtable_frozen := some [([0], Entry.Present v1), ([2], Entry.Deleted)],
        memtable_size := 1048577 }) := by
  refine put_entry_eq_of_ge_none (o := none) ?_ rfl ?_ rfl
  · rfl
  · norm_num [MEMTABLE_MAX_SIZE_BYTES]

theorem del_dbBig : DB.delete dbBig [2] = some (Except.ok dbBigDel) :=
  del_generic bigVal1

/-! ## Claims -/

/-- C1 (corrected): the stated invariant fails after a freeze, because
`_swap_and_compact` does not reset the counter; what holds instead is that
the counter equals the sum of (key byte length + entry length) over the
active AND the frozen memtable together. The per-call deltas are as claimed:
an overwrite changes the counter by (new entry length − old entry length)
with the key length not double-counted, and a fresh insertion grows it by
entry length + key length. -/
theorem c1_size_invariant :
    (∀ db : DB, Reachable db →
      db.memtable_size = mtSize db.memtable + mtSize (frozenD db)) ∧
    (∀ (db db' : DB) (k : Key) (e o : Entry), Reachable db →
      mtGet k db.memtable = some o →
      DB._put_entry db k e = some (Except.ok db') →
      db'.memtable_size + o.len = db.memtable_size + e.len) ∧
    (∀ (db db' : DB) (k : Key) (e : Entry),
      mtGet k db.memtable = none →
      DB._put_entry db k e = some (Except.ok db') →
      db'.memtable_size = db.memtable_size + e.len + k.length) :=
  ⟨fun _ h => reachable_size_inv h,
   fun _ _ _ _ _ hr hget hok => put_entry_size_overwrite hr hget hok,
   fun _ _ _ _ hget hok => put_entry_size_fresh hget hok⟩

/-- C1 counterexample: after `open`, `put [0] [1,2]` and a freeze, the store
is reachable, its counter still holds 3, but the (now empty) active memtable
sums to 0 — the claimed active-only invariant is false. -/
theorem c1_counterexample :
    Reachable dbAF ∧ dbAF.memtable_size ≠ mtSize dbAF.memtable :=
  ⟨Reachable.freezeStep reachable_dbA (by rfl), by decide⟩

/-- C1 witness: the invariant and both deltas instantiated on small stores. -/
theorem c1_witness :
    dbA.memtable_size = mtSize dbA.memtable + mtSize (frozenD dbA) ∧
    dbAOver.memtable_size + (Entry.Present [1, 2]).len =
      dbA.memtable_size + (Entry.Present [7]).len ∧
    dbADel.memtable_size = dbA.memtable_size + Entry.Deleted.len + ([5] : Key).length :=
  ⟨c1_size_invariant.1 dbA reachable_dbA,
   c1_size_invariant.2.1 dbA dbAOver [0] (Entry.Present [7]) (Entry.Present [1, 2])
     reachable_dbA (by decide) (by rfl),
   c1_size_invariant.2.2 dbA dbADel [5] Entry.Deleted (by decide) (by rfl)⟩

/-- C2 (confirmed): for every well-formed store and sought byte sequence `p`
(the empty one included), `seek p` returns `Ok` of a sequence consisting of
exactly the keys beginning with `p` whose highest-precedence entry (active
over frozen) is Present — equivalently, pairs `(k, v)` with
`get k = Ok (some v)` — in strictly ascending key order, without duplicate
keys, even when a key occurs in both memtables. -/
theorem c2_seek_spec (db : DB) (p : Key) (hwf : DBWF db) :
    ∃ l, DB.seek db p = Except.ok l ∧
      List.Pairwise keyLt (l.map Prod.fst) ∧
      (l.map Prod.fst).Nodup ∧
      (∀ (k : Key) (v : Value),
        (k, v) ∈ l ↔ (p.isPrefixOf k = true ∧ DB.get db k = Except.ok (some v))) := by
  refine ⟨DB.seekList db p, rfl, seekList_keys_sorted p hwf, ?_, ?_⟩
  · exact (seekList_keys_sorted p hwf).imp fun h => keyLt_ne h
  · intro k v
    rw [seekList_mem_iff hwf, get_ok_some_iff]

/-- C2 witness: the specification instantiated on a store whose key `[1]`
lives in both memtables and whose key `[2]` is an active tombstone. -/
theorem c2_witness :
    DBWF dbWit ∧
    ∃ l, DB.seek dbWit [] = Except.ok l ∧
      List.Pairwise keyLt (l.map Prod.fst) ∧
      (l.map Prod.fst).Nodup ∧
      (∀ (k : Key) (v : Value),
        (k, v) ∈ l ↔
          (([] : Key).isPrefixOf k = true ∧ DB.get dbWit k = Except.ok (some v))) :=
  ⟨by decide, c2_seek_spec dbWit [] (by decide)⟩

/-- C3 (confirmed): for every sequence of put/delete operations that runs to
completion on a freshly opened store, `get k` afterwards returns the payload
of the last put to `k` if no later delete to `k` occurred, and absent if `k`
was never written or its most recent write was a delete. -/
theorem c3_last_write (path : List Nat) (ops : List Op) (db' : DB) (k : Key)
    (h : applyOps (dbInit path) ops = some db') :
    DB.get db' k = Except.ok (lastWrite ops k) := by
  rw [get_eq_or]
  have h1 := applyOps_get h k
  have h2 : (mtGet k (dbInit path).memtable).or (mtGet k (frozenD (dbInit path))) =
      (none : Option Entry) := rfl
  rw [h2] at h1
  rw [h1]
  exact congrArg Except.ok (lastWrite_eq_entry_fold ops k none).symm

/-- C3 witness: after `put [1] [5]; put [2] [6]; delete [1]`, `get [1]` is
absent, exactly as `lastWrite` computes. -/
theorem c3_witness : DB.get dbOps [1] = Except.ok (lastWrite opsWit [1]) :=
  c3_last_write [] opsWit dbOps [1] (by rfl)

/-- C4 (confirmed): for a key present in both memtables, the active entry
alone decides `get` and the key's treatment in a scan: a Present active
entry yields its payload, a Deleted active entry yields absent with no
fall-through to the frozen entry, and a scan surfaces the key only with the
active payload — the frozen entry never surfaces. -/
theorem c4_active_wins (db : DB) (p k : Key) (e ef : Entry) (hwf : DBWF db)
    (hk : mtGet k db.memtable = some e)
    (hkf : mtGet k (frozenD db) = some ef) :
    DB.get db k = Except.ok (entryToLookup e) ∧
    (∀ v : Value, (k, v) ∈ DB.seekList db p ↔
      (p.isPrefixOf k = true ∧ e = Entry.Present v)) := by
  constructor
  · rw [get_eq_or, hk]
    cases e <;> rfl
  · intro v
    rw [seekList_mem_iff hwf, hk]
    cases e <;> simp [Option.or, entryToLookup]

/-- C4 witness: key `[1]` is Present in both memtables of `dbWit` with
different payloads; the active payload `[10]` wins everywhere. -/
theorem c4_witness :
    DB.get dbWit [1] = Except.ok (entryToLookup (Entry.Present [10])) ∧
    (∀ v : Value, ([1], v) ∈ DB.seekList dbWit [] ↔
      (([] : Key).isPrefixOf [1] = true ∧ Entry.Present [10] = Entry.Present v)) :=
  c4_active_wins dbWit [] [1] (Entry.Present [10]) (Entry.Present [99])
    (by decide) (by decide) (by decide)

/-- C5 (confirmed): a put or delete (both are `_put_entry`) first updates the
memtable and the size counter to `s2`, and then, exactly when
`s2 ≥ 1,048,576`, swaps the active memtable into the frozen slot within the
same call (panicking if a frozen memtable already exists); when
`s2 < 1,048,576` no swap happens and the frozen slot is untouched. -/
theorem c5_threshold (db : DB) (k : Key) (e : Entry) (s2 : Nat)
    (m2 : Memtable) (o : Option Entry)
    (hs2 : s2 = (match o with
      | some ov => db.memtable_size + e.len - ov.len
      | none => db.memtable_size + e.len + k.length))
    (hins : mtInsert k e db.memtable = (m2, o)) :
    (MEMTABLE_MAX_SIZE_BYTES ≤ s2 →
      DB._put_entry db k e =
        (match db.memtable_frozen with
         | none => some (Except.ok
             { root_path := db.root_path, memtable := [],
               memtable_frozen := some m2, memtable_size := s2 })
         | some _ => none)) ∧
    (s2 < MEMTABLE_MAX_SIZE_BYTES →
      DB._put_entry db k e = some (Except.ok
        { root_path := db.root_path, memtable := m2,
          memtable_frozen := db.memtable_frozen, memtable_size := s2 })) := by
  constructor
  · intro hge
    cases hf : db.memtable_frozen with
    | none => rw [put_entry_eq_of_ge_none hs2 hins hge hf]
    | some f => rw [put_entry_eq_of_ge_some hs2 hins hge hf]
  · intro hlt
    exact put_entry_eq_of_lt hs2 hins hlt

/-- C5 witness: the threshold dichotomy instantiated on a fresh store and a
small write (new counter 2, far below the threshold). -/
theorem c5_witness :
    (MEMTABLE_MAX_SIZE_BYTES ≤ 2 →
      DB._put_entry (dbInit []) [1] (Entry.Present [5]) =
        (match (dbInit []).memtable_frozen with
         | none => some (Except.ok
             { root_path := (dbInit []).root_path, memtable := [],
               memtable_frozen := some [([1], Entry.Present [5])], memtable_size := 2 })
         | some _ => none)) ∧
    (2 < MEMTABLE_MAX_SIZE_BYTES →
      DB._put_entry (dbInit []) [1] (Entry.Present [5]) = some (Except.ok
        { root_path := (dbInit []).root_path, memtable := [([1], Entry.Present [5])],
          memtable_frozen := (dbInit []).memtable_frozen, memtable_size := 2 })) :=
  c5_threshold (dbInit []) [1] (Entry.Present [5]) 2 [([1], Entry.Present [5])] none
    rfl rfl

/-- C6 (confirmed): `_swap_and_compact` never touches the counter, so a put
or delete that triggers the threshold freeze leaves the counter at its
pre-freeze value (≥ threshold) over an empty active memtable; consequently
every subsequent put or delete crosses the threshold again and halts on the
`assert!` (a frozen memtable already exists) — no second write completes. -/
theorem c6_poisoned_after_freeze (db db' : DB) (k : Key) (e : Entry)
    (h0 : db.memtable_frozen = none)
    (hok : DB._put_entry db k e = some (Except.ok db'))
    (hfroze : db'.memtable_frozen.isSome = true) :
    (∀ d d2 : DB, DB._swap_and_compact d = some d2 →
        d2.memtable_size = d.memtable_size) ∧
    MEMTABLE_MAX_SIZE_BYTES ≤ db'.memtable_size ∧
    db'.memtable = [] ∧
    (∀ (k2 : Key) (e2 : Entry), DB._put_entry db' k2 e2 = none) := by
  have hswap : ∀ d d2 : DB, DB._swap_and_compact d = some d2 →
      d2.memtable_size = d.memtable_size := by
    intro d d2 hs
    obtain ⟨-, rfl⟩ := swap_inv hs
    rfl
  obtain ⟨m2, o, s2, hs2, hins, hcase⟩ := put_entry_ok_inv hok
  rcases hcase with ⟨hlt, rfl⟩ | ⟨hge, hfz, rfl⟩
  · simp [h0] at hfroze
  · refine ⟨hswap, hge, rfl, ?_⟩
    intro k2 e2
    exact @put_entry_eq_of_ge_some _ k2 e2 (s2 + e2.len + k2.length) [(k2, e2)] none m2
      rfl rfl (by omega) rfl

/-- C6 witness: the overwrite of `[0]` in `dbBig` crosses the threshold and
freezes; afterwards every write panics. -/
theorem c6_witness :
    (∀ d d2 : DB, DB._swap_and_compact d = some d2 →
        d2.memtable_size = d.memtable_size) ∧
    MEMTABLE_MAX_SIZE_BYTES ≤ dbBig2.memtable_size ∧
    dbBig2.memtable = [] ∧
    (∀ (k2 : Key) (e2 : Entry), DB._put_entry dbBig2 k2 e2 = none) :=
  c6_poisoned_after_freeze dbBig dbBig2 [0] (Entry.Present bigVal2) rfl
    put_dbBig_overwrite rfl

/-- C7 (confirmed): the frozen slot is a single `Option`, so at most one
frozen memtable exists; `_swap_and_compact` halts on its `assert!` (modelled
as `none`, not a recoverable `DBError`) exactly when a frozen memtable
already exists, and otherwise performs the swap. -/
theorem c7_freeze_asserts (db : DB) :
    (DB._swap_and_compact db = none ↔ db.memtable_frozen.isSome = true) ∧
    (db.memtable_frozen = none →
      DB._swap_and_compact db =
        some { db with memtable := [], memtable_frozen := some db.memtable }) :=
  ⟨swap_eq_none_iff, swap_eq_of_none⟩

/-- C7 witness: freezing `dbA` (no frozen memtable) succeeds with the
expected swap; the panic iff is instantiated on `dbAF` (frozen occupied). -/
theorem c7_witness :
    DB._swap_and_compact dbA =
      some { dbA with memtable := [], memtable_frozen := some dbA.memtable } ∧
    (DB._swap_and_compact dbAF = none ↔ dbAF.memtable_frozen.isSome = true) :=
  ⟨(c7_freeze_asserts dbA).2 rfl, (c7_freeze_asserts dbAF).1⟩

/-- C8 (confirmed): none of the public operations ever produces the error
variant: `open`, `get` and `seek` always return `Ok`, and whenever `put` or
`delete` returns at all (does not panic), the returned value is `Ok`. -/
theorem c8_no_errors :
    (∀ path : List Nat, ∃ d, DB.openDB path = Except.ok d) ∧
    (∀ (db : DB) (k : Key), ∃ o, DB.get db k = Except.ok o) ∧
    (∀ (db : DB) (p : Key), ∃ l, DB.seek db p = Except.ok l) ∧
    (∀ (db : DB) (k : Key) (v : Value) (r : Except DBError DB),
        DB.put db k v = some r → ∃ d, r = Except.ok d) ∧
    (∀ (db : DB) (k : Key) (r : Except DBError DB),
        DB.delete db k = some r → ∃ d, r = Except.ok d) :=
  ⟨fun _ => ⟨_, rfl⟩, fun db k => ⟨_, get_eq_or db k⟩, fun _ _ => ⟨_, rfl⟩,
   fun _ _ _ _ h => put_entry_some_ok h, fun _ _ _ h => put_entry_some_ok h⟩

/-- C8 witness: the totality statements instantiated on concrete stores. -/
theorem c8_witness :
    (∃ o, DB.get dbWit [1] = Except.ok o) ∧
    (∃ d, (Except.ok dbAOver : Except DBError DB) = Except.ok d) :=
  ⟨c8_no_errors.2.1 dbWit [1],
   c8_no_errors.2.2.2.1 dbA [0] [7] (Except.ok dbAOver) (by rfl)⟩

/-- C9 counterexample: overwriting key `[0]` of the reachable store `dbBig`
(one byte below the threshold) with a bigger payload crosses the threshold;
the updated memtable is swapped into the frozen slot and the active
mapping's key set changes from `[[0]]` to `[]` — the claim as stated is
false for threshold-crossing overwrites. -/
theorem c9_counterexample :
    mtGet [0] dbBig.memtable = some (Entry.Present bigVal1) ∧
    Reachable dbBig ∧
    DB.put dbBig [0] bigVal2 = some (Except.ok dbBig2) ∧
    mtKeys dbBig2.memtable ≠ mtKeys dbBig.memtable := by
  refine ⟨rfl, reachable_dbBig, put_dbBig_overwrite, ?_⟩
  intro hc
  simp [mtKeys, dbBig, dbBig2] at hc

/-- C9 (amended): an overwrite leaves the key set of the updated memtable
unchanged — that memtable remains active, or becomes the frozen memtable
when the call crossed the size threshold — changing only the overwritten
key's entry, and the counter changes by (new entry length − old entry
length). -/
theorem c9_overwrite_frame (db db' : DB) (k : Key) (e o : Entry)
    (hr : Reachable db)
    (hget : mtGet k db.memtable = some o)
    (hok : DB._put_entry db k e = some (Except.ok db')) :
    ∃ m2 : Memtable,
      ((db'.memtable = m2 ∧ db'.memtable_frozen = db.memtable_frozen) ∨
        (db'.memtable = [] ∧ db'.memtable_frozen = some m2)) ∧
      mtKeys m2 = mtKeys db.memtable ∧
      mtGet k m2 = some e ∧
      (∀ k2, k2 ≠ k → mtGet k2 m2 = mtGet k2 db.memtable) ∧
      db'.memtable_size + o.len = db.memtable_size + e.len := by
  have hwf := reachable_wf hr
  have hsize := put_entry_size_overwrite hr hget hok
  obtain ⟨m2, o2, s2, hs2, hins, hcase⟩ := put_entry_ok_inv hok
  have hkeys : mtKeys m2 = mtKeys db.memtable := by
    have ho2 : (mtInsert k e db.memtable).2 = some o := by
      rw [mtInsert_snd_sorted hwf.1, hget]
    have h1 := mtInsert_keys_some k e db.memtable o ho2
    rw [hins] at h1
    exact h1
  have hgets : mtGet k m2 = some e := by
    have h1 := mtInsert_fst_get_self k e db.memtable
    rwa [hins] at h1
  have hgeto : ∀ k2, k2 ≠ k → mtGet k2 m2 = mtGet k2 db.memtable := by
    intro k2 hne
    have h1 := mtInsert_fst_get_other k e db.memtable k2 hne
    rwa [hins] at h1
  refine ⟨m2, ?_, hkeys, hgets, hgeto, hsize⟩
  rcases hcase with ⟨hlt, rfl⟩ | ⟨hge, hfz, rfl⟩
  · exact Or.inl ⟨rfl, rfl⟩
  · exact Or.inr ⟨rfl, rfl⟩

/-- C9 witness: the amended frame property on the small overwrite
`dbA → dbAOver` (no freeze). -/
theorem c9_witness :
    ∃ m2 : Memtable,
      ((dbAOver.memtable = m2 ∧ dbAOver.memtable_frozen = dbA.memtable_frozen) ∨
        (dbAOver.memtable = [] ∧ dbAOver.memtable_frozen = some m2)) ∧
      mtKeys m2 = mtKeys dbA.memtable ∧
      mtGet [0] m2 = some (Entry.Present [7]) ∧
      (∀ k2, k2 ≠ [0] → mtGet k2 m2 = mtGet k2 dbA.memtable) ∧
      dbAOver.memtable_size + (Entry.Present [1, 2]).len =
        dbA.memtable_size + (Entry.Present [7]).len :=
  c9_overwrite_frame dbA dbAOver [0] (Entry.Present [7]) (Entry.Present [1, 2])
    reachable_dbA (by decide) (by rfl)

/-- C10 counterexample: deleting the absent key `[2]` from the reachable
store `dbBig` inserts the tombstone but crosses the threshold, so the
updated memtable is frozen and `[2]` is NOT a member of the active mapping
afterwards — the claim as stated is false for threshold-crossing deletes. -/
theorem c10_counterexample :
    mtGet [2] dbBig.memtable = none ∧
    mtGet [2] (frozenD dbBig) = none ∧
    Reachable dbBig ∧
    DB.delete dbBig [2] = some (Except.ok dbBigDel) ∧
    mtGet [2] dbBigDel.memtable = none :=
  ⟨rfl, rfl, reachable_dbBig, del_dbBig, rfl⟩

/-- C10 (amended): deleting a key absent from both memtables still inserts a
Deleted tombstone (counter grows by key byte length + 1, a Deleted entry's
length being the constant 1), after which the tombstone sits in the active
memtable — or in the frozen one if the delete crossed the size threshold —
while `get` reports the key absent. -/
theorem c10_delete_absent (db db' : DB) (k : Key)
    (h1 : mtGet k db.memtable = none)
    (h2 : mtGet k (frozenD db) = none)
    (hok : DB.delete db k = some (Except.ok db')) :
    db'.memtable_size = db.memtable_size + k.length + 1 ∧
    DB.get db' k = Except.ok none ∧
    (mtGet k db'.memtable = some Entry.Deleted ∨
      (db'.memtable = [] ∧
        ∃ f, db'.memtable_frozen = some f ∧ mtGet k f = some Entry.Deleted)) := by
  have hsz := put_entry_size_fresh h1 hok
  have hsame := put_entry_get_same (e := Entry.Deleted) hok
  obtain ⟨m2, o, s2, hs2, hins, hcase⟩ := put_entry_ok_inv hok
  have hgets : mtGet k m2 = some Entry.Deleted := by
    have hx := mtInsert_fst_get_self k Entry.Deleted db.memtable
    rwa [hins] at hx
  refine ⟨?_, ?_, ?_⟩
  · have hd : Entry.Deleted.len = 1 := rfl
    rw [hd] at hsz
    omega
  · rw [get_eq_or, hsame]
  · rcases hcase with ⟨hlt, rfl⟩ | ⟨hge, hfz, rfl⟩
    · exact Or.inl hgets
    · exact Or.inr ⟨rfl, m2, rfl, hgets⟩

/-- C10 witness: the amended property on the small delete of the absent key
`[5]` from `dbA` (no freeze). -/
theorem c10_witness :
    dbADel.memtable_size = dbA.memtable_size + ([5] : Key).length + 1 ∧
    DB.get dbADel [5] = Except.ok none ∧
    (mtGet [5] dbADel.memtable = some Entry.Deleted ∨
      (dbADel.memtable = [] ∧
        ∃ f, dbADel.memtable_frozen = some f ∧ mtGet [5] f = some Entry.Deleted)) :=
  c10_delete_absent dbA dbADel [5] (by decide) (by rfl) (by rfl)
